import Mathlib

/-!
Verification of the slot-classification core of the react-slots library,
a shallow embedding of src/react-slots.tsx.

Modelling conventions:

A React element carries a type value. The values that can occur as an
element type in this program are a string (host components such as div),
a reference to a function component (modelled by an opaque Nat handle),
or the react.fragment symbol. A node passed as a child is either an
element, a text or numeric primitive, a boolean, null, or undefined.
Nested arrays of children are outside the model.

The WeakMap built by getSlots is keyed by object references. Keys that
are set are either a function-component reference (single and repeatable
schema entries) or the object literal of a namespaced schema entry. That
object literal is a fresh reference distinct from every function
component and from every possible element type, so the two key shapes
are kept apart by the MapKey type; a child element type can only ever
coincide with a component-reference key.

JavaScript objects are modelled as association lists with distinct keys
in insertion order; property update replaces in place, property addition
appends, matching JS enumeration semantics. JS schema objects cannot
hold two identical keys, which theorems carry as a Nodup hypothesis on
the schema key list. The TypeError thrown when the classification pass
reads the type property of null or undefined is modelled by the throw
constructor of JsResult.
-/

namespace ReactSlots

/-- The possible values of the type field of a React element in this program. -/
inductive ElemType where
  | str (s : String)
  | ctor (c : Nat)
  | fragment
deriving DecidableEq, Repr

/-- A React child node: an element (with the list that props.children
normalizes to), a text or numeric primitive, a boolean, null, or undefined. -/
inductive RNode where
  | elem (t : ElemType) (kids : List RNode)
  | text (s : String)
  | num (n : Int)
  | boolTrue
  | boolFalse
  | nullN
  | undefN

/-- The children argument of getSlots: undefined, a single node, or an array. -/
inductive ChildrenArg where
  | undef
  | single (n : RNode)
  | list (l : List RNode)

/-- One schema entry value: a component, a one-element tuple of a component,
or a mapping from labels to components (the namespaced form; the list models
the object's ordered own keys, possibly malformed with zero or several keys). -/
inductive SchemaValue where
  | single (c : Nat)
  | repeatable (c : Nat)
  | namespaced (m : List (String × Nat))
deriving DecidableEq, Repr

/-- A schema: slot names in insertion order with their values. -/
abbrev Schema : Type := List (String × SchemaValue)

/-- A key stored in the constructorMap WeakMap: either a function-component
reference or the object literal of the namespaced entry at a given slot. -/
inductive MapKey where
  | ctor (c : Nat)
  | nsObj (slot : String)
deriving DecidableEq, Repr

/-- A value stored in the slots object: a bare element or an array of elements. -/
inductive SlotVal where
  | one (n : RNode)
  | many (l : List RNode)

/-- Association-list state of the slots object. -/
abbrev Slots : Type := List (String × SlotVal)

/-- Result object of getSlots. -/
structure SlotsResult where
  slots : List (String × SlotVal)
  children : List RNode

/-- Outcome of running a piece of JS that can throw a TypeError. -/
inductive JsResult (α : Type) where
  | ok (a : α)
  | throw

/-! JS object and WeakMap primitives. -/

/-- WeakMap.get, with set modelled as prepend so the most recent set wins. -/
def wmGet (m : List (MapKey × String)) (k : MapKey) : Option String :=
  (m.find? (fun e => decide (e.1 = k))).map (fun e => e.2)

/-- Property read on a JS object modelled as an assoc list. -/
def objGet (o : List (String × SlotVal)) (k : String) : Option SlotVal :=
  (o.find? (fun e => decide (e.1 = k))).map (fun e => e.2)

/-- Property write: replace in place if present, append otherwise. -/
def objSet (o : List (String × SlotVal)) (k : String) (v : SlotVal) :
    List (String × SlotVal) :=
  match o with
  | [] => [(k, v)]
  | e :: rest => if e.1 = k then (k, v) :: rest else e :: objSet rest k v

/-- Read of schema at a slot key (JS property access on the schema object). -/
def schemaGet (s : Schema) (k : String) : Option SchemaValue :=
  (s.find? (fun e => decide (e.1 = k))).map (fun e => e.2)

/-- Array.isArray test applied to a schema property read. -/
def isArraySchemaVal : Option SchemaValue → Bool
  | some (.repeatable _) => true
  | _ => false

/-! The source embedding of getSlots. -/

/-- JS truthiness of a child node. -/
def truthy : RNode → Bool
  | .elem _ _ => true
  | .text s => !(s = "")
  | .num n => !(n = 0)
  | .boolTrue => true
  | .boolFalse => false
  | .nullN => false
  | .undefN => false

/-- Normalization of the children argument at the top of getSlots:
falsy argument gives the empty array, a non-array argument is wrapped,
an array is used as is. -/
def normalizeChildren : ChildrenArg → List RNode
  | .undef => []
  | .single n => if truthy n then [n] else []
  | .list l => l

/-- One iteration of the schema loop that fills constructorMap and pre-seeds
sortedSlots: a repeatable entry registers its tuple element and seeds an
empty array, a single entry registers the component itself, a namespaced
entry registers the mapping object literal. -/
def setupStep (acc : List (MapKey × String) × List (String × SlotVal))
    (e : String × SchemaValue) :
    List (MapKey × String) × List (String × SlotVal) :=
  match e.2 with
  | .single c => ((MapKey.ctor c, e.1) :: acc.1, acc.2)
  | .repeatable c => ((MapKey.ctor c, e.1) :: acc.1, objSet acc.2 e.1 (.many []))
  | .namespaced _ => ((MapKey.nsObj e.1, e.1) :: acc.1, acc.2)

/-- The schema loop of getSlots. -/
def setupFold (schema : Schema) : List (MapKey × String) × List (String × SlotVal) :=
  schema.foldl setupStep ([], [])

/-- Read of the type property of a child value; throws on null and undefined,
gives undefined on other primitives. -/
def jsType : RNode → JsResult (Option ElemType)
  | .elem t _ => .ok (some t)
  | .nullN => .throw
  | .undefN => .throw
  | _ => .ok none

/-- The typeof childType equal to string test. -/
def typeofString : Option ElemType → Bool
  | some (.str _) => true
  | _ => false

/-- Lookup of a child type in constructorMap (has followed by get). Undefined,
strings and the fragment symbol are never registered keys. -/
def wmGetType (m : List (MapKey × String)) : Option ElemType → Option String
  | some (.ctor c) => wmGet m (.ctor c)
  | _ => none

/-- One iteration of the reduce callback in getSlots, including the possible
TypeError on reading the type of null or undefined. -/
def classifyStep (schema : Schema) (cmap : List (MapKey × String))
    (p : List RNode × Slots) (cv : RNode) : JsResult (List RNode × Slots) :=
  match jsType cv with
  | .throw => .throw
  | .ok childType =>
    if typeofString childType then .ok (p.1 ++ [cv], p.2)
    else
      match wmGetType cmap childType with
      | none => .ok (p.1 ++ [cv], p.2)
      | some key =>
        if !isArraySchemaVal (schemaGet schema key) then
          .ok (p.1, objSet p.2 key (.one cv))
        else
          match objGet p.2 key with
          | none => .ok (p.1, objSet p.2 key (.many [cv]))
          | some (.many l) => .ok (p.1, objSet p.2 key (.many (l ++ [cv])))
          | some (.one x) => .ok (p.1, objSet p.2 key (.many [x, cv]))

/-- Sequencing of the reduce over the child list, stopping at a thrown error. -/
def classifyFold (schema : Schema) (cmap : List (MapKey × String)) :
    List RNode → (List RNode × Slots) → JsResult (List RNode × Slots)
  | [], p => .ok p
  | cv :: rest, p =>
    match classifyStep schema cmap p cv with
    | .throw => .throw
    | .ok p2 => classifyFold schema cmap rest p2

/-- One step of the flatMap: a fragment is replaced by its children array,
anything else stays as a single element. -/
def flattenOne : RNode → List RNode
  | .elem .fragment kids => kids
  | n => [n]

/-- The filtered, one-level flattened child sequence the reduce walks over. -/
def flattenedInput (arg : ChildrenArg) : List RNode :=
  ((normalizeChildren arg).filter truthy).flatMap flattenOne

/-- The classification core of react-slots: getSlots. -/
def getSlots (children : ChildrenArg) (schema : Schema) : JsResult SlotsResult :=
  match classifyFold schema (setupFold schema).1 (flattenedInput children)
      ([], (setupFold schema).2) with
  | .throw => .throw
  | .ok p => .ok ⟨p.2, p.1⟩

/-! The source embedding of resolveChildSlot and the static slot table of
withSlots. -/

/-- The value resolveChildSlot gives back: a component reference, or the
namespaced mapping object itself when its key count is not one. -/
inductive ResolvedSlot where
  | ctor (c : Nat)
  | obj (m : List (String × Nat))
deriving DecidableEq, Repr

/-- resolveChildSlot: first element of a tuple, sole value of a one-key
mapping, and otherwise the argument unchanged. -/
def resolveChildSlot : SchemaValue → ResolvedSlot
  | .single c => .ctor c
  | .repeatable c => .ctor c
  | .namespaced [(_, c)] => .ctor c
  | .namespaced m => .obj m

/-- The static properties withSlots attaches to the wrapped component:
each schema key mapped through resolveChildSlot. -/
def withSlotsStatics (schema : Schema) : List (String × ResolvedSlot) :=
  schema.map (fun e => (e.1, resolveChildSlot e.2))

/-- Property read on the static slot table. -/
def staticGet (o : List (String × ResolvedSlot)) (k : String) : Option ResolvedSlot :=
  (o.find? (fun e => decide (e.1 = k))).map (fun e => e.2)

/-! Derived notions used to state and prove properties of getSlots. -/

/-- True unless reading the type property of the node would throw. -/
def noThrow : RNode → Bool
  | .nullN => false
  | .undefN => false
  | _ => true

/-- The slot a child node resolves to, combining the typeof test and the
constructorMap lookup of the classification pass. -/
def nodeMatch (cmap : List (MapKey × String)) : RNode → Option String
  | .elem (.ctor c) _ => wmGet cmap (.ctor c)
  | _ => none

/-- The slot update a matched node performs, exactly as in the reduce body. -/
def applySlot (schema : Schema) (sl : Slots) (key : String) (cv : RNode) : Slots :=
  if !isArraySchemaVal (schemaGet schema key) then objSet sl key (.one cv)
  else
    match objGet sl key with
    | none => objSet sl key (.many [cv])
    | some (.many l) => objSet sl key (.many (l ++ [cv]))
    | some (.one x) => objSet sl key (.many [x, cv])

/-- The reduce body restricted to nodes that do not throw. -/
def pureStep (schema : Schema) (cmap : List (MapKey × String))
    (p : List RNode × Slots) (cv : RNode) : List RNode × Slots :=
  match nodeMatch cmap cv with
  | none => (p.1 ++ [cv], p.2)
  | some key => (p.1, applySlot schema p.2 key cv)

/-- The full classification pass as a total fold (meaningful on inputs on
which getSlots does not throw). -/
def classifyAll (schema : Schema) (arg : ChildrenArg) : List RNode × Slots :=
  (flattenedInput arg).foldl (pureStep schema (setupFold schema).1)
    ([], (setupFold schema).2)

/-- The matched nodes of a child sequence with the slot each one resolves to. -/
def matchedPairs (cmap : List (MapKey × String)) (L : List RNode) :
    List (String × RNode) :=
  L.filterMap (fun cv => (nodeMatch cmap cv).map (fun k => (k, cv)))

/-- The slot updates of the classification pass, isolated from the children
accumulation. -/
def pairsFold (schema : Schema) (sl : Slots) (pairs : List (String × RNode)) :
    Slots :=
  pairs.foldl (fun acc e => applySlot schema acc e.1 e.2) sl

/-- The constructorMap registration a schema entry performs. -/
def regEntry : String × SchemaValue → MapKey × String
  | (k, .single c) => (.ctor c, k)
  | (k, .repeatable c) => (.ctor c, k)
  | (k, .namespaced _) => (.nsObj k, k)

/-- The component reference a schema entry registers under, if any; a
namespaced entry registers its object literal, never a component. -/
def regComp : SchemaValue → Option Nat
  | .single c => some c
  | .repeatable c => some c
  | .namespaced _ => none

/-- The slot name of the last schema entry registering a given component:
the winner of the constructorMap registration loop. -/
def lastReg (schema : Schema) (c : Nat) : Option String :=
  (schema.reverse.find? (fun e => decide (regComp e.2 = some c))).map
    (fun e => e.1)

/-- Test for the repeatable schema form. -/
def isRepVal : SchemaValue → Bool
  | .repeatable _ => true
  | _ => false

/-- The nodes of the flattened input that resolve to a given slot, in order. -/
def matchedTo (schema : Schema) (arg : ChildrenArg) (K : String) : List RNode :=
  (flattenedInput arg).filter
    (fun cv => decide (nodeMatch (setupFold schema).1 cv = some K))

/-- The WeakMap key a child node's type can present: only component
references; a node's type is never the private mapping object literal of a
namespaced schema entry. -/
def typeKey : RNode → Option MapKey
  | .elem (.ctor c) _ => some (.ctor c)
  | _ => none

/-- Test for a key registered by a namespaced schema entry. -/
def isNsKey : MapKey → Bool
  | .nsObj _ => true
  | .ctor _ => false

/-- A node counts as a namespaced match when its type hits a constructorMap
key that a namespaced entry registered. -/
def nsMatched (schema : Schema) (cv : RNode) : Bool :=
  match typeKey cv with
  | some k => isNsKey k && (wmGet (setupFold schema).1 k).isSome
  | none => false

/-- Number of namespaced matches in the flattened input. -/
def nsMatchCount (schema : Schema) (arg : ChildrenArg) : Nat :=
  ((flattenedInput arg).filter (nsMatched schema)).length

/-- Size of a slot value as the specification counts it: one for a bare
element, the array length for an array. -/
def claimSlotSize : SlotVal → Nat
  | .one _ => 1
  | .many l => l.length

/-- Sum of specification-counted slot sizes over the slots object. -/
def claimSlotsSum (sl : Slots) : Nat :=
  (sl.map (fun e => claimSlotSize e.2)).sum

/-- Contribution of a slot value to the array-valued total. -/
def manyLen : SlotVal → Nat
  | .one _ => 0
  | .many l => l.length

/-- Total number of elements held in array-valued slots. -/
def slotsManySum (sl : Slots) : Nat :=
  (sl.map (fun e => manyLen e.2)).sum

/-- A node that resolves to a slot whose schema value is not an array
(last-match-wins overwrite semantics apply to it). -/
def matchedKindSingle (schema : Schema) (cv : RNode) : Bool :=
  match nodeMatch (setupFold schema).1 cv with
  | some k => !isArraySchemaVal (schemaGet schema k)
  | none => false

/-- A node that resolves to a slot whose schema value is an array. -/
def matchedKindRep (schema : Schema) (cv : RNode) : Bool :=
  match nodeMatch (setupFold schema).1 cv with
  | some k => isArraySchemaVal (schemaGet schema k)
  | none => false

/-- Number of flattened input nodes matched to non-repeatable slots,
counting every duplicate. -/
def countMatchedSingle (schema : Schema) (arg : ChildrenArg) : Nat :=
  ((flattenedInput arg).filter (matchedKindSingle schema)).length

/-! Basic lemmas about the object and map primitives. -/

theorem objGet_objSet_self (o : List (String × SlotVal)) (k : String)
    (v : SlotVal) : objGet (objSet o k v) k = some v := by
  induction o with
  | nil =>
    simp only [objSet, objGet]
    rw [List.find?_cons_of_pos _ (by simp)]
    rfl
  | cons e rest ih =>
    by_cases h : e.1 = k
    · simp only [objSet, if_pos h, objGet]
      rw [List.find?_cons_of_pos _ (by simp)]
      rfl
    · simp only [objSet, if_neg h, objGet]
      rw [List.find?_cons_of_neg _ (by simpa using h)]
      exact ih

theorem objGet_objSet_ne (o : List (String × SlotVal)) (k k2 : String)
    (v : SlotVal) (h : k2 ≠ k) : objGet (objSet o k v) k2 = objGet o k2 := by
  induction o with
  | nil =>
    simp only [objSet, objGet]
    rw [List.find?_cons_of_neg _ (by simp; exact fun hh => h hh.symm)]
  | cons e rest ih =>
    by_cases he : e.1 = k
    · simp only [objSet, if_pos he, objGet]
      rw [List.find?_cons_of_neg _ (by simp; exact fun hh => h hh.symm),
        List.find?_cons_of_neg _ (by simp; exact fun hh => h (by rw [← hh, he]))]
    · simp only [objSet, if_neg he, objGet]
      by_cases h2 : e.1 = k2
      · rw [List.find?_cons_of_pos _ (by simpa using h2),
          List.find?_cons_of_pos _ (by simpa using h2)]
      · rw [List.find?_cons_of_neg _ (by simpa using h2),
          List.find?_cons_of_neg _ (by simpa using h2)]
        exact ih

theorem mem_objSet (o : List (String × SlotVal)) (k : String) (v : SlotVal) :
    ∀ e ∈ objSet o k v, e ∈ o ∨ e = (k, v) := by
  induction o with
  | nil => intro e he; simp [objSet] at he; simp [he]
  | cons e0 rest ih =>
    intro e he
    by_cases h : e0.1 = k
    · simp only [objSet, if_pos h] at he
      rcases List.mem_cons.1 he with h1 | h1
      · right; exact h1
      · left; exact List.mem_cons_of_mem _ h1
    · simp only [objSet, if_neg h] at he
      rcases List.mem_cons.1 he with h1 | h1
      · left; simp [h1]
      · rcases ih e h1 with h2 | h2
        · left; exact List.mem_cons_of_mem _ h2
        · right; exact h2

/-! Bridging the throwing reduce to the total fold. -/

theorem classifyStep_eq_pure (schema : Schema) (cmap : List (MapKey × String))
    (p : List RNode × Slots) (cv : RNode) (h : noThrow cv = true) :
    classifyStep schema cmap p cv = .ok (pureStep schema cmap p cv) := by
  cases cv with
  | elem t kids =>
    cases t with
    | str s => rfl
    | fragment => rfl
    | ctor c =>
      cases hw : wmGet cmap (MapKey.ctor c) with
      | none =>
        simp [classifyStep, jsType, typeofString, wmGetType, hw, pureStep, nodeMatch]
      | some key =>
        simp only [classifyStep, jsType, typeofString, wmGetType, hw, pureStep, nodeMatch]
        by_cases hA : isArraySchemaVal (schemaGet schema key)
        · simp only [applySlot, hA, Bool.not_true, if_neg]
          cases hg : objGet p.2 key with
          | none => simp [hg]
          | some w => cases w <;> simp [hg]
        · simp [applySlot, hA]
  | text s => rfl
  | num n => rfl
  | boolTrue => rfl
  | boolFalse => rfl
  | nullN => simp [noThrow] at h
  | undefN => simp [noThrow] at h

theorem classifyFold_ok (schema : Schema) (cmap : List (MapKey × String)) :
    ∀ (L : List RNode) (p s : List RNode × Slots),
      classifyFold schema cmap L p = .ok s →
      (∀ cv ∈ L, noThrow cv = true) ∧ s = L.foldl (pureStep schema cmap) p := by
  intro L
  induction L with
  | nil =>
    intro p s h
    simp only [classifyFold] at h
    injection h with h2
    subst h2
    exact ⟨fun cv hcv => absurd hcv (List.not_mem_nil cv), rfl⟩
  | cons cv rest ih =>
    intro p s h
    by_cases hnt : noThrow cv = true
    · rw [classifyFold, classifyStep_eq_pure schema cmap p cv hnt] at h
      obtain ⟨h1, h2⟩ := ih (pureStep schema cmap p cv) s h
      refine ⟨?_, ?_⟩
      · intro x hx
        rcases List.mem_cons.1 hx with rfl | hx2
        · exact hnt
        · exact h1 x hx2
      · rw [List.foldl_cons]; exact h2
    · exfalso
      have hthrow : classifyStep schema cmap p cv = .throw := by
        cases cv <;> first | rfl | (simp [noThrow] at hnt)
      rw [classifyFold, hthrow] at h
      exact JsResult.noConfusion h

theorem getSlots_ok_parts (arg : ChildrenArg) (schema : Schema) (r : SlotsResult)
    (h : getSlots arg schema = .ok r) :
    r.children = (classifyAll schema arg).1 ∧ r.slots = (classifyAll schema arg).2 := by
  unfold getSlots at h
  cases hc : classifyFold schema (setupFold schema).1 (flattenedInput arg)
      ([], (setupFold schema).2) with
  | throw =>
    rw [hc] at h
    exact JsResult.noConfusion h
  | ok p =>
    rw [hc] at h
    obtain ⟨hnt, h2⟩ := classifyFold_ok schema (setupFold schema).1 (flattenedInput arg)
      ([], (setupFold schema).2) p hc
    have hr : r = ⟨p.2, p.1⟩ := by
      injection h with h3
      exact h3.symm
    subst hr
    unfold classifyAll
    rw [← h2]
    exact ⟨rfl, rfl⟩

/-! Characterizing the total fold. -/

theorem foldl_pure_children (schema : Schema) (cmap : List (MapKey × String)) :
    ∀ (L : List RNode) (p : List RNode × Slots),
      (L.foldl (pureStep schema cmap) p).1
        = p.1 ++ L.filter (fun cv => (nodeMatch cmap cv).isNone) := by
  intro L
  induction L with
  | nil => intro p; simp
  | cons cv rest ih =>
    intro p
    rw [List.foldl_cons, ih]
    cases hm : nodeMatch cmap cv with
    | none => simp [pureStep, hm, List.filter_cons]
    | some k => simp [pureStep, hm, List.filter_cons]

theorem foldl_pure_slots (schema : Schema) (cmap : List (MapKey × String)) :
    ∀ (L : List RNode) (p : List RNode × Slots),
      (L.foldl (pureStep schema cmap) p).2
        = pairsFold schema p.2 (matchedPairs cmap L) := by
  intro L
  induction L with
  | nil => intro p; simp [matchedPairs, pairsFold]
  | cons cv rest ih =>
    intro p
    rw [List.foldl_cons, ih]
    cases hm : nodeMatch cmap cv with
    | none => simp [pureStep, hm, matchedPairs, List.filterMap_cons, pairsFold]
    | some k => simp [pureStep, hm, matchedPairs, List.filterMap_cons, pairsFold]

theorem getSlots_children_char (arg : ChildrenArg) (schema : Schema) (r : SlotsResult)
    (h : getSlots arg schema = .ok r) :
    r.children = (flattenedInput arg).filter
      (fun cv => (nodeMatch (setupFold schema).1 cv).isNone) := by
  obtain ⟨h1, _⟩ := getSlots_ok_parts arg schema r h
  rw [h1]
  unfold classifyAll
  rw [foldl_pure_children]
  simp

theorem getSlots_slots_char (arg : ChildrenArg) (schema : Schema) (r : SlotsResult)
    (h : getSlots arg schema = .ok r) :
    r.slots = pairsFold schema (setupFold schema).2
      (matchedPairs (setupFold schema).1 (flattenedInput arg)) := by
  obtain ⟨_, h2⟩ := getSlots_ok_parts arg schema r h
  rw [h2]
  unfold classifyAll
  rw [foldl_pure_slots]

/-! Per-key behavior of the slot updates. -/

theorem pairsFold_nil (schema : Schema) (sl : Slots) : pairsFold schema sl [] = sl :=
  rfl

theorem pairsFold_cons (schema : Schema) (sl : Slots) (e : String × RNode)
    (rest : List (String × RNode)) :
    pairsFold schema sl (e :: rest)
      = pairsFold schema (applySlot schema sl e.1 e.2) rest :=
  rfl

theorem objGet_applySlot_ne (schema : Schema) (sl : Slots) (k K : String)
    (cv : RNode) (h : K ≠ k) :
    objGet (applySlot schema sl k cv) K = objGet sl K := by
  unfold applySlot
  split
  · exact objGet_objSet_ne sl k K _ h
  · split
    · exact objGet_objSet_ne sl k K _ h
    · exact objGet_objSet_ne sl k K _ h
    · exact objGet_objSet_ne sl k K _ h

theorem getLastQ_cons {α : Type} (a : α) (l : List α) :
    (a :: l).getLast?
      = some (match l.getLast? with | none => a | some x => x) := by
  induction l generalizing a with
  | nil => rfl
  | cons b l2 ih =>
    rw [List.getLast?_cons_cons, ih b]

theorem pairsFold_untouched (schema : Schema) :
    ∀ (pairs : List (String × RNode)) (sl : Slots) (K : String),
      (∀ e ∈ pairs, e.1 ≠ K) → objGet (pairsFold schema sl pairs) K = objGet sl K := by
  intro pairs
  induction pairs with
  | nil => intro sl K _; rfl
  | cons e rest ih =>
    intro sl K h
    rw [pairsFold_cons,
      ih _ K (fun x hx => h x (List.mem_cons_of_mem _ hx))]
    exact objGet_applySlot_ne schema sl e.1 K e.2 (Ne.symm (h e (List.mem_cons_self e rest)))

theorem pairsFold_rep (schema : Schema) (K : String)
    (hA : isArraySchemaVal (schemaGet schema K) = true) :
    ∀ (pairs : List (String × RNode)) (sl : Slots) (l : List RNode),
      objGet sl K = some (.many l) →
      objGet (pairsFold schema sl pairs) K
        = some (.many (l ++ (pairs.filter (fun e => decide (e.1 = K))).map (fun e => e.2))) := by
  intro pairs
  induction pairs with
  | nil =>
    intro sl l h
    rw [pairsFold_nil]
    simpa using h
  | cons e rest ih =>
    intro sl l h
    rw [pairsFold_cons]
    by_cases he : e.1 = K
    · have happ : objGet (applySlot schema sl e.1 e.2) K = some (.many (l ++ [e.2])) := by
        rw [he]
        unfold applySlot
        rw [hA, h]
        simp [objGet_objSet_self]
      rw [ih _ _ happ]
      simp [List.filter_cons, he]
    · have happ : objGet (applySlot schema sl e.1 e.2) K = some (.many l) := by
        rw [objGet_applySlot_ne schema sl e.1 K e.2 (Ne.symm he)]
        exact h
      rw [ih _ _ happ]
      simp [List.filter_cons, he]

theorem pairsFold_single (schema : Schema) (K : String)
    (hA : isArraySchemaVal (schemaGet schema K) = false) :
    ∀ (pairs : List (String × RNode)) (sl : Slots),
      objGet (pairsFold schema sl pairs) K
        = match ((pairs.filter (fun e => decide (e.1 = K))).map (fun e => e.2)).getLast? with
          | none => objGet sl K
          | some x => some (.one x) := by
  intro pairs
  induction pairs with
  | nil => intro sl; rfl
  | cons e rest ih =>
    intro sl
    rw [pairsFold_cons, ih]
    by_cases he : e.1 = K
    · have hfil : ((e :: rest).filter (fun x => decide (x.1 = K))).map (fun x => x.2)
          = e.2 :: (rest.filter (fun x => decide (x.1 = K))).map (fun x => x.2) := by
        simp [List.filter_cons, he]
      rw [hfil, getLastQ_cons]
      have hset : objGet (applySlot schema sl e.1 e.2) K = some (.one e.2) := by
        rw [he]
        unfold applySlot
        rw [hA]
        simp [objGet_objSet_self]
      cases hl : ((rest.filter (fun x => decide (x.1 = K))).map (fun x => x.2)).getLast? with
      | none => simp [hl, hset]
      | some x => simp [hl]
    · have hfil : ((e :: rest).filter (fun x => decide (x.1 = K))).map (fun x => x.2)
          = (rest.filter (fun x => decide (x.1 = K))).map (fun x => x.2) := by
        simp [List.filter_cons, he]
      rw [hfil, objGet_applySlot_ne schema sl e.1 K e.2 (Ne.symm he)]

/-! The matched-pairs view of the input. -/

theorem matchedPairs_cons_none (cmap : List (MapKey × String)) (cv : RNode)
    (rest : List RNode) (hm : nodeMatch cmap cv = none) :
    matchedPairs cmap (cv :: rest) = matchedPairs cmap rest := by
  simp [matchedPairs, List.filterMap_cons, hm]

theorem matchedPairs_cons_some (cmap : List (MapKey × String)) (cv : RNode)
    (rest : List RNode) (k : String) (hm : nodeMatch cmap cv = some k) :
    matchedPairs cmap (cv :: rest) = (k, cv) :: matchedPairs cmap rest := by
  simp [matchedPairs, List.filterMap_cons, hm]

theorem matchedPairs_key_filter (cmap : List (MapKey × String)) (K : String) :
    ∀ L : List RNode,
      ((matchedPairs cmap L).filter (fun e => decide (e.1 = K))).map (fun e => e.2)
        = L.filter (fun cv => decide (nodeMatch cmap cv = some K)) := by
  intro L
  induction L with
  | nil => rfl
  | cons cv rest ih =>
    cases hm : nodeMatch cmap cv with
    | none =>
      rw [matchedPairs_cons_none _ _ _ hm, List.filter_cons]
      simp [hm, ih]
    | some k =>
      rw [matchedPairs_cons_some _ _ _ _ hm]
      by_cases hk : k = K
      · subst hk
        simp [List.filter_cons, hm, ih]
      · simp [List.filter_cons, hm, hk, ih]

theorem matchedPairs_mem (cmap : List (MapKey × String)) (L : List RNode)
    (e : String × RNode) (h : e ∈ matchedPairs cmap L) :
    nodeMatch cmap e.2 = some e.1 ∧ e.2 ∈ L := by
  unfold matchedPairs at h
  rw [List.mem_filterMap] at h
  obtain ⟨cv, hcv, hmap⟩ := h
  cases hm : nodeMatch cmap cv with
  | none => rw [hm] at hmap; simp at hmap
  | some k =>
    rw [hm] at hmap
    simp only [Option.map_some'] at hmap
    injection hmap with h2
    rw [← h2]
    exact ⟨hm, hcv⟩

theorem nodeMatch_some (cmap : List (MapKey × String)) (cv : RNode) (K : String)
    (h : nodeMatch cmap cv = some K) :
    ∃ c kids, cv = .elem (.ctor c) kids ∧ wmGet cmap (.ctor c) = some K := by
  cases cv with
  | elem t kids =>
    cases t with
    | ctor c => exact ⟨c, kids, rfl, h⟩
    | str s => simp [nodeMatch] at h
    | fragment => simp [nodeMatch] at h
  | text s => simp [nodeMatch] at h
  | num n => simp [nodeMatch] at h
  | boolTrue => simp [nodeMatch] at h
  | boolFalse => simp [nodeMatch] at h
  | nullN => simp [nodeMatch] at h
  | undefN => simp [nodeMatch] at h

/-! Characterizing the schema loop. -/

theorem setupFold_fst : ∀ (schema : Schema) (m : List (MapKey × String)) (o : Slots),
    (schema.foldl setupStep (m, o)).1 = (schema.map regEntry).reverse ++ m := by
  intro schema
  induction schema with
  | nil => intro m o; simp [List.foldl_nil]
  | cons e rest ih =>
    intro m o
    obtain ⟨k, v⟩ := e
    rw [List.foldl_cons]
    cases v with
    | single c =>
      simp only [setupStep]
      rw [ih]
      simp [regEntry]
    | repeatable c =>
      simp only [setupStep]
      rw [ih]
      simp [regEntry]
    | namespaced mm =>
      simp only [setupStep]
      rw [ih]
      simp [regEntry]

theorem setupFold_snd_get : ∀ (schema : Schema) (m : List (MapKey × String)) (o : Slots)
    (K : String),
    objGet ((schema.foldl setupStep (m, o)).2) K
      = if schema.any (fun e => decide (e.1 = K) && isRepVal e.2) then some (.many [])
        else objGet o K := by
  intro schema
  induction schema with
  | nil => intro m o K; simp [List.foldl_nil]
  | cons e rest ih =>
    intro m o K
    obtain ⟨k, v⟩ := e
    rw [List.foldl_cons]
    cases v with
    | single c =>
      simp only [setupStep]
      rw [ih]
      have hcond : (((k, SchemaValue.single c) :: rest).any
            fun e => decide (e.1 = K) && isRepVal e.2)
          = rest.any fun e => decide (e.1 = K) && isRepVal e.2 := by
        rw [List.any_cons]
        simp [isRepVal]
      simp only [hcond]
    | namespaced mm =>
      simp only [setupStep]
      rw [ih]
      have hcond : (((k, SchemaValue.namespaced mm) :: rest).any
            fun e => decide (e.1 = K) && isRepVal e.2)
          = rest.any fun e => decide (e.1 = K) && isRepVal e.2 := by
        rw [List.any_cons]
        simp [isRepVal]
      simp only [hcond]
    | repeatable c =>
      simp only [setupStep]
      rw [ih]
      by_cases hk : k = K
      · subst hk
        have hcond : (((k, SchemaValue.repeatable c) :: rest).any
            fun e => decide (e.1 = k) && isRepVal e.2) = true := by
          rw [List.any_cons]
          simp [isRepVal]
        simp only [hcond, if_true]
        by_cases hrest : (rest.any fun e => decide (e.1 = k) && isRepVal e.2) = true
        · simp [hrest]
        · simp [hrest, objGet_objSet_self]
      · have hcond : (((k, SchemaValue.repeatable c) :: rest).any
              fun e => decide (e.1 = K) && isRepVal e.2)
            = rest.any fun e => decide (e.1 = K) && isRepVal e.2 := by
          rw [List.any_cons]
          simp [isRepVal, hk]
        simp only [hcond]
        by_cases hrest : (rest.any fun e => decide (e.1 = K) && isRepVal e.2) = true
        · simp [hrest]
        · simp [hrest, objGet_objSet_ne o k K _ (Ne.symm hk)]

theorem findCongr {α : Type} (l : List α) (p q : α → Bool) (h : ∀ a, p a = q a) :
    l.find? p = l.find? q := by
  induction l with
  | nil => rfl
  | cons a rest ih =>
    by_cases hq : q a = true
    · rw [List.find?_cons_of_pos _ ((h a).trans hq), List.find?_cons_of_pos _ hq]
    · have hp : ¬p a = true := by rw [h a]; exact hq
      rw [List.find?_cons_of_neg _ hp, List.find?_cons_of_neg _ hq]
      exact ih

theorem wmGet_ctor (schema : Schema) (c : Nat) :
    wmGet (setupFold schema).1 (.ctor c) = lastReg schema c := by
  unfold setupFold
  rw [setupFold_fst schema [] []]
  unfold wmGet lastReg
  rw [List.append_nil, ← List.map_reverse, List.find?_map, Option.map_map]
  rw [findCongr schema.reverse ((fun x => decide (x.1 = MapKey.ctor c)) ∘ regEntry)
    (fun e => decide (regComp e.2 = some c)) ?hpred]
  case hpred =>
    intro e
    obtain ⟨k, v⟩ := e
    cases v <;> simp [regEntry, regComp]
  cases hf : schema.reverse.find? (fun e => decide (regComp e.2 = some c)) with
  | none => rfl
  | some e =>
    obtain ⟨k, v⟩ := e
    cases v <;> simp [regEntry, regComp] at hf ⊢

theorem lastReg_mem (schema : Schema) (c : Nat) (K : String)
    (h : lastReg schema c = some K) :
    ∃ v, (K, v) ∈ schema ∧ regComp v = some c := by
  unfold lastReg at h
  cases hf : schema.reverse.find? (fun e => decide (regComp e.2 = some c)) with
  | none => rw [hf] at h; simp at h
  | some e =>
    rw [hf] at h
    simp only [Option.map_some'] at h
    injection h with h2
    have hp := List.find?_some hf
    have hm := List.mem_of_find?_eq_some hf
    rw [List.mem_reverse] at hm
    refine ⟨e.2, ?_, by simpa using hp⟩
    rw [← h2]
    exact hm

/-! Nodup consequences for the schema object. -/

theorem schemaGet_mem_nodup (schema : Schema) (K : String) (v : SchemaValue)
    (hnd : (schema.map Prod.fst).Nodup) (h : (K, v) ∈ schema) :
    schemaGet schema K = some v := by
  induction schema with
  | nil => cases h
  | cons e rest ih =>
    rw [List.map_cons, List.nodup_cons] at hnd
    obtain ⟨hne, hnd2⟩ := hnd
    rcases List.mem_cons.1 h with he | h2
    · rw [← he]
      unfold schemaGet
      rw [List.find?_cons_of_pos _ (by simp)]
      rfl
    · by_cases hk : e.1 = K
      · exfalso
        apply hne
        rw [hk]
        exact List.mem_map_of_mem Prod.fst h2
      · unfold schemaGet
        rw [List.find?_cons_of_neg _ (by simpa using hk)]
        exact ih hnd2 h2

theorem mem_unique_nodup (schema : Schema) (K : String) (v v' : SchemaValue)
    (hnd : (schema.map Prod.fst).Nodup) (h : (K, v) ∈ schema)
    (h' : (K, v') ∈ schema) : v = v' := by
  have h1 := schemaGet_mem_nodup schema K v hnd h
  have h2 := schemaGet_mem_nodup schema K v' hnd h'
  rw [h1] at h2
  exact Option.some.inj h2

theorem schemaGet_some_mem (schema : Schema) (K : String) (v : SchemaValue)
    (h : schemaGet schema K = some v) : (K, v) ∈ schema := by
  unfold schemaGet at h
  cases hf : schema.find? (fun e => decide (e.1 = K)) with
  | none => rw [hf] at h; simp at h
  | some e =>
    rw [hf] at h
    simp only [Option.map_some'] at h
    have hp := List.find?_some hf
    have hm := List.mem_of_find?_eq_some hf
    have he : e = (K, v) := by
      obtain ⟨a, b⟩ := e
      simp at hp h
      rw [hp, h]
    rw [← he]
    exact hm

theorem schemaGet_none_not_mem (schema : Schema) (K : String)
    (h : schemaGet schema K = none) : ∀ v, (K, v) ∉ schema := by
  intro v hv
  unfold schemaGet at h
  cases hf : schema.find? (fun e => decide (e.1 = K)) with
  | some e => rw [hf] at h; simp at h
  | none =>
    rw [List.find?_eq_none] at hf
    exact hf (K, v) hv (by simp)

/-! Master characterization of the result slots, per schema entry kind. -/

theorem initSlots_get (schema : Schema) (K : String) :
    objGet (setupFold schema).2 K
      = if schema.any (fun e => decide (e.1 = K) && isRepVal e.2) then some (.many [])
        else none := by
  unfold setupFold
  rw [setupFold_snd_get]
  rfl

theorem initSlots_rep (schema : Schema) (K : String) (c : Nat)
    (hmem : (K, SchemaValue.repeatable c) ∈ schema) :
    objGet (setupFold schema).2 K = some (.many []) := by
  rw [initSlots_get, if_pos]
  rw [List.any_eq_true]
  exact ⟨(K, .repeatable c), hmem, by simp [isRepVal]⟩

theorem initSlots_none (schema : Schema) (K : String)
    (hno : ∀ c, (K, SchemaValue.repeatable c) ∉ schema) :
    objGet (setupFold schema).2 K = none := by
  rw [initSlots_get, if_neg]
  intro hany
  rw [List.any_eq_true] at hany
  obtain ⟨e, he, hp⟩ := hany
  obtain ⟨k2, v2⟩ := e
  simp only [Bool.and_eq_true, decide_eq_true_eq] at hp
  obtain ⟨hk2, hrep⟩ := hp
  cases v2 with
  | repeatable c =>
    rw [hk2] at he
    exact hno c he
  | single c => simp [isRepVal] at hrep
  | namespaced m => simp [isRepVal] at hrep

theorem slots_rep_char (schema : Schema) (arg : ChildrenArg) (r : SlotsResult)
    (K : String) (c : Nat) (hnd : (schema.map Prod.fst).Nodup)
    (hmem : (K, SchemaValue.repeatable c) ∈ schema)
    (h : getSlots arg schema = .ok r) :
    objGet r.slots K = some (.many (matchedTo schema arg K)) := by
  rw [getSlots_slots_char arg schema r h]
  have hA : isArraySchemaVal (schemaGet schema K) = true := by
    rw [schemaGet_mem_nodup schema K _ hnd hmem]
    rfl
  rw [pairsFold_rep schema K hA _ _ [] (initSlots_rep schema K c hmem),
    matchedPairs_key_filter]
  simp [matchedTo]

theorem slots_single_char (schema : Schema) (arg : ChildrenArg) (r : SlotsResult)
    (K : String) (c : Nat) (hnd : (schema.map Prod.fst).Nodup)
    (hmem : (K, SchemaValue.single c) ∈ schema)
    (h : getSlots arg schema = .ok r) :
    objGet r.slots K = (matchedTo schema arg K).getLast?.map SlotVal.one := by
  rw [getSlots_slots_char arg schema r h]
  have hA : isArraySchemaVal (schemaGet schema K) = false := by
    rw [schemaGet_mem_nodup schema K _ hnd hmem]
    rfl
  have hinit : objGet (setupFold schema).2 K = none := by
    apply initSlots_none
    intro c2 hc2
    exact SchemaValue.noConfusion (mem_unique_nodup schema K _ _ hnd hmem hc2)
  rw [pairsFold_single schema K hA, matchedPairs_key_filter]
  unfold matchedTo
  cases hl : ((flattenedInput arg).filter
      fun cv => decide (nodeMatch (setupFold schema).1 cv = some K)).getLast? with
  | none => simp [hl, hinit]
  | some x => simp [hl]

theorem matchedPairs_key_not (schema : Schema) (arg : ChildrenArg) (K : String)
    (hno : ∀ c v, (K, v) ∈ schema → regComp v ≠ some c) :
    ∀ e ∈ matchedPairs (setupFold schema).1 (flattenedInput arg), e.1 ≠ K := by
  intro e he hek
  obtain ⟨hm, _⟩ := matchedPairs_mem _ _ e he
  obtain ⟨c, kids, _, hw⟩ := nodeMatch_some _ _ _ hm
  rw [wmGet_ctor] at hw
  obtain ⟨v, hv, hreg⟩ := lastReg_mem schema c e.1 hw
  rw [hek] at hv
  exact hno c v hv hreg

theorem slots_ns_char (schema : Schema) (arg : ChildrenArg) (r : SlotsResult)
    (K : String) (m : List (String × Nat)) (hnd : (schema.map Prod.fst).Nodup)
    (hmem : (K, SchemaValue.namespaced m) ∈ schema)
    (h : getSlots arg schema = .ok r) :
    objGet r.slots K = none := by
  have hkeys := matchedPairs_key_not schema arg K ?hno
  case hno =>
    intro c v hv
    rw [mem_unique_nodup schema K _ _ hnd hv hmem]
    simp [regComp]
  rw [getSlots_slots_char arg schema r h,
    pairsFold_untouched schema _ _ K hkeys]
  apply initSlots_none
  intro c2 hc2
  exact SchemaValue.noConfusion (mem_unique_nodup schema K _ _ hnd hmem hc2)

theorem slots_nokey_char (schema : Schema) (arg : ChildrenArg) (r : SlotsResult)
    (K : String) (hno : ∀ v, (K, v) ∉ schema)
    (h : getSlots arg schema = .ok r) :
    objGet r.slots K = none := by
  have hkeys := matchedPairs_key_not schema arg K (fun c v hv => absurd hv (hno v))
  rw [getSlots_slots_char arg schema r h,
    pairsFold_untouched schema _ _ K hkeys]
  apply initSlots_none
  intro c2 hc2
  exact hno _ hc2

theorem children_mem_iff (arg : ChildrenArg) (schema : Schema) (r : SlotsResult)
    (h : getSlots arg schema = .ok r) (x : RNode) :
    x ∈ r.children
      ↔ x ∈ flattenedInput arg ∧ nodeMatch (setupFold schema).1 x = none := by
  rw [getSlots_children_char arg schema r h, List.mem_filter]
  simp [Option.isNone_iff_eq_none]

/-! Concrete example inputs used by witnesses. -/

/-- Example schema with one namespaced entry whose nested component is 7. -/
def exSchemaNs : Schema := [("NS", .namespaced [("X", 7)])]

/-- Example children argument: a single element built from component 7. -/
def exArgNs : ChildrenArg := .single (.elem (.ctor 7) [])

/-- Result of getSlots on the namespaced example. -/
def exResNs : SlotsResult := ⟨[], [.elem (.ctor 7) []]⟩

/-- Example schema with a lone non-repeatable slot for component 0. -/
def exSchemaDup : Schema := [("A", .single 0)]

/-- Example children with two distinct matches for the non-repeatable slot. -/
def exArgDup : ChildrenArg :=
  .list [.elem (.ctor 0) [.text "a"], .elem (.ctor 0) [.text "b"]]

/-- Result of getSlots on the duplicate-match example. -/
def exResDup : SlotsResult := ⟨[("A", .one (.elem (.ctor 0) [.text "b"]))], []⟩

/-- Example schema exercising all three entry forms. -/
def exSchemaAll : Schema :=
  [("A", .repeatable 0), ("B", .single 1), ("C", .namespaced [("x", 2)])]

/-- Result of getSlots with absent children on the three-form schema. -/
def exResEmpty : SlotsResult := ⟨[("A", .many [])], []⟩

/-! Claim theorems. -/

/-- Claim C1, counterexample: for the schema with the namespaced entry NS
mapping X to component 7 and a single child whose type is component 7, the
child is NOT removed from the output children (the claim says every node
whose type equals the nested component identity is removed). The reduce
looks the child's type up in constructorMap, which holds the mapping object
literal, not component 7, so the child falls through to children. -/
theorem C1_counterexample :
    getSlots (.single (.elem (.ctor 7) [])) [("NS", .namespaced [("X", 7)])]
      = .ok ⟨[], [.elem (.ctor 7) []]⟩ := rfl

/-- Claim C1, amended: a namespaced schema entry registers its mapping
object literal, never the nested component, so a node whose type equals the
nested component identity is not matched: when that identity is registered
by no single or repeatable entry, such nodes stay in the output children;
and the namespaced slot's key never appears in the output slots. -/
theorem C1_amended_thm (schema : Schema) (hnd : (schema.map Prod.fst).Nodup)
    (K : String) (m : List (String × Nat))
    (hK : (K, SchemaValue.namespaced m) ∈ schema)
    (arg : ChildrenArg) (r : SlotsResult) (hok : getSlots arg schema = .ok r) :
    objGet r.slots K = none ∧
    ∀ c kids, (∃ lbl, (lbl, c) ∈ m) → lastReg schema c = none →
      RNode.elem (.ctor c) kids ∈ flattenedInput arg →
      RNode.elem (.ctor c) kids ∈ r.children := by
  refine ⟨slots_ns_char schema arg r K m hnd hK hok, ?_⟩
  intro c kids _ hlast hmem
  rw [children_mem_iff arg schema r hok]
  refine ⟨hmem, ?_⟩
  simp [nodeMatch, wmGet_ctor, hlast]

/-- Witness for the amended claim C1 at the namespaced example. -/
theorem C1_amended_witness :
    ((exSchemaNs.map Prod.fst).Nodup
      ∧ ("NS", SchemaValue.namespaced [("X", 7)]) ∈ exSchemaNs
      ∧ getSlots exArgNs exSchemaNs = .ok exResNs) ∧
    (objGet exResNs.slots "NS" = none ∧
      ∀ c kids, (∃ lbl, (lbl, c) ∈ [("X", 7)]) → lastReg exSchemaNs c = none →
        RNode.elem (.ctor c) kids ∈ flattenedInput exArgNs →
        RNode.elem (.ctor c) kids ∈ exResNs.children) :=
  ⟨⟨by decide, by decide, rfl⟩,
    C1_amended_thm exSchemaNs (by decide) "NS" [("X", 7)] (by decide)
      exArgNs exResNs rfl⟩

/-- Claim C2, code bug evidence: on a well-formed schema (here the empty
schema) and children holding a fragment whose own child list contains null,
getSlots throws (the reduce reads the type property of null), while the
claim says it completes without raising. -/
theorem C2_fragment_null_throws :
    getSlots (.list [.elem .fragment [.nullN, .elem (.ctor 0) []]]) [] = .throw :=
  rfl

/-- Claim C4: when two or more nodes of the flattened input match the same
non-repeatable schema entry, the output slot holds exactly the last such
node in flattened input order, and none of the matches appears in the
output children. -/
theorem C4_last_match_wins (schema : Schema) (hnd : (schema.map Prod.fst).Nodup)
    (K : String) (c : Nat) (hmem : (K, SchemaValue.single c) ∈ schema)
    (arg : ChildrenArg) (r : SlotsResult) (hok : getSlots arg schema = .ok r)
    (hlen : 2 ≤ (matchedTo schema arg K).length) :
    objGet r.slots K = (matchedTo schema arg K).getLast?.map SlotVal.one ∧
    ∀ x ∈ matchedTo schema arg K, x ∉ r.children := by
  refine ⟨slots_single_char schema arg r K c hnd hmem hok, ?_⟩
  intro x hx hxc
  rw [children_mem_iff arg schema r hok] at hxc
  obtain ⟨_, hnone⟩ := hxc
  unfold matchedTo at hx
  rw [List.mem_filter] at hx
  obtain ⟨_, hmatch⟩ := hx
  rw [hnone] at hmatch
  simp at hmatch

/-- Witness for claim C4 at the duplicate-match example. -/
theorem C4_witness :
    (getSlots exArgDup exSchemaDup = .ok exResDup
      ∧ 2 ≤ (matchedTo exSchemaDup exArgDup "A").length) ∧
    (objGet exResDup.slots "A"
        = (matchedTo exSchemaDup exArgDup "A").getLast?.map SlotVal.one ∧
      ∀ x ∈ matchedTo exSchemaDup exArgDup "A", x ∉ exResDup.children) :=
  ⟨⟨rfl, by decide⟩,
    C4_last_match_wins exSchemaDup (by decide) "A" 0 (by decide)
      exArgDup exResDup rfl (by decide)⟩

/-- Claim C7: with absent or empty children, the output children sequence is
empty, every repeatable schema entry is present in slots as an empty array,
and every non-repeatable and namespaced schema key is absent from slots. -/
theorem C7_empty_input (schema : Schema) (hnd : (schema.map Prod.fst).Nodup)
    (arg : ChildrenArg) (hemp : normalizeChildren arg = [])
    (r : SlotsResult) (hok : getSlots arg schema = .ok r) :
    r.children = [] ∧
    (∀ K c, (K, SchemaValue.repeatable c) ∈ schema →
      objGet r.slots K = some (.many [])) ∧
    (∀ K c, (K, SchemaValue.single c) ∈ schema → objGet r.slots K = none) ∧
    (∀ K m, (K, SchemaValue.namespaced m) ∈ schema → objGet r.slots K = none) := by
  have hflat : flattenedInput arg = [] := by
    unfold flattenedInput
    rw [hemp]
    rfl
  refine ⟨?_, ?_, ?_, ?_⟩
  · rw [getSlots_children_char arg schema r hok, hflat]
    rfl
  · intro K c hmem
    rw [slots_rep_char schema arg r K c hnd hmem hok]
    unfold matchedTo
    rw [hflat]
    rfl
  · intro K c hmem
    rw [slots_single_char schema arg r K c hnd hmem hok]
    unfold matchedTo
    rw [hflat]
    rfl
  · intro K m hmem
    exact slots_ns_char schema arg r K m hnd hmem hok

/-- Witness for claim C7 at the three-form schema with absent children. -/
theorem C7_witness :
    ((exSchemaAll.map Prod.fst).Nodup
      ∧ normalizeChildren .undef = []
      ∧ getSlots .undef exSchemaAll = .ok exResEmpty) ∧
    (exResEmpty.children = [] ∧
      (∀ K c, (K, SchemaValue.repeatable c) ∈ exSchemaAll →
        objGet exResEmpty.slots K = some (.many [])) ∧
      (∀ K c, (K, SchemaValue.single c) ∈ exSchemaAll →
        objGet exResEmpty.slots K = none) ∧
      (∀ K m, (K, SchemaValue.namespaced m) ∈ exSchemaAll →
        objGet exResEmpty.slots K = none)) :=
  ⟨⟨by decide, rfl, rfl⟩,
    C7_empty_input exSchemaAll (by decide) .undef rfl exResEmpty rfl⟩

/-- Claim C8, code bug evidence: a schema whose namespaced mapping has two
keys raises nothing; getSlots fully computes its result (registering the
mapping object, which matches no child), and resolveChildSlot returns the
mapping unchanged instead of failing: no ConfigurationError exists in the
code. -/
theorem C8_multikey_no_error :
    getSlots (.list [.elem (.ctor 1) []]) [("NS", .namespaced [("a", 1), ("b", 2)])]
      = .ok ⟨[], [.elem (.ctor 1) []]⟩
    ∧ resolveChildSlot (.namespaced [("a", 1), ("b", 2)])
      = .obj [("a", 1), ("b", 2)] :=
  ⟨rfl, rfl⟩

/-- Lookup on the statics table attached by withSlots. -/
theorem staticGet_withSlots (schema : Schema) (hnd : (schema.map Prod.fst).Nodup)
    (K : String) (v : SchemaValue) (hmem : (K, v) ∈ schema) :
    staticGet (withSlotsStatics schema) K = some (resolveChildSlot v) := by
  induction schema with
  | nil => cases hmem
  | cons e rest ih =>
    rw [List.map_cons, List.nodup_cons] at hnd
    obtain ⟨hne, hnd2⟩ := hnd
    rcases List.mem_cons.1 hmem with he | h2
    · rw [← he]
      unfold withSlotsStatics staticGet
      rw [List.map_cons, List.find?_cons_of_pos _ (by simp)]
      rfl
    · unfold withSlotsStatics staticGet
      rw [List.map_cons, List.find?_cons_of_neg _ ?hne2]
      · exact ih hnd2 h2
      case hne2 =>
        simp only [decide_eq_true_eq]
        intro hek
        apply hne
        rw [hek]
        exact List.mem_map_of_mem Prod.fst h2

/-- Claim C9: resolveChildSlot returns the entry itself for the
single-component form, the tuple's sole element for the repeatable form,
and the single nested value for the one-key namespaced form; and these
resolved identities are exactly the values withSlots attaches as named
static properties on the wrapped component. -/
theorem C9_resolution (schema : Schema) (hnd : (schema.map Prod.fst).Nodup)
    (K : String) (v : SchemaValue) (hmem : (K, v) ∈ schema) :
    staticGet (withSlotsStatics schema) K = some (resolveChildSlot v) ∧
    (∀ c, resolveChildSlot (.single c) = .ctor c) ∧
    (∀ c, resolveChildSlot (.repeatable c) = .ctor c) ∧
    (∀ lbl c, resolveChildSlot (.namespaced [(lbl, c)]) = .ctor c) :=
  ⟨staticGet_withSlots schema hnd K v hmem,
    fun _ => rfl, fun _ => rfl, fun _ _ => rfl⟩

/-- Witness for claim C9 at the three-form schema. -/
theorem C9_witness :
    ((exSchemaAll.map Prod.fst).Nodup
      ∧ ("C", SchemaValue.namespaced [("x", 2)]) ∈ exSchemaAll) ∧
    (staticGet (withSlotsStatics exSchemaAll) "C" = some (ResolvedSlot.ctor 2) ∧
      (∀ c, resolveChildSlot (.single c) = .ctor c) ∧
      (∀ c, resolveChildSlot (.repeatable c) = .ctor c) ∧
      (∀ lbl c, resolveChildSlot (.namespaced [(lbl, c)]) = .ctor c)) :=
  ⟨⟨by decide, by decide⟩,
    C9_resolution exSchemaAll (by decide) "C" (.namespaced [("x", 2)]) (by decide)⟩

/-- Example children argument with two repeatable matches around a host
element, used by the order-preservation witness. -/
def exArgOrder : ChildrenArg :=
  .list [.elem (.ctor 0) [.text "1"], .elem (.str "div") [], .elem (.ctor 0) [.text "2"]]

/-- Result of getSlots on the order example over the three-form schema. -/
def exResOrder : SlotsResult :=
  ⟨[("A", .many [.elem (.ctor 0) [.text "1"], .elem (.ctor 0) [.text "2"]])],
    [.elem (.str "div") []]⟩

/-- Claim C6: the output children sequence is an order-preserving
subsequence of the flattened filtered input, and so is every array-valued
slot's sequence (stable partition). -/
theorem C6_order (schema : Schema) (hnd : (schema.map Prod.fst).Nodup)
    (arg : ChildrenArg) (r : SlotsResult) (hok : getSlots arg schema = .ok r) :
    r.children.Sublist (flattenedInput arg) ∧
    ∀ K l, objGet r.slots K = some (.many l) → l.Sublist (flattenedInput arg) := by
  refine ⟨?_, ?_⟩
  · rw [getSlots_children_char arg schema r hok]
    exact List.filter_sublist _
  · intro K l hl
    cases hsg : schemaGet schema K with
    | none =>
      rw [slots_nokey_char schema arg r K (schemaGet_none_not_mem schema K hsg) hok] at hl
      exact Option.noConfusion hl
    | some v =>
      have hmem := schemaGet_some_mem schema K v hsg
      cases v with
      | single c =>
        rw [slots_single_char schema arg r K c hnd hmem hok] at hl
        cases hg : (matchedTo schema arg K).getLast? with
        | none => rw [hg] at hl; simp at hl
        | some x => rw [hg] at hl; simp at hl
      | repeatable c =>
        rw [slots_rep_char schema arg r K c hnd hmem hok] at hl
        injection hl with h2
        injection h2 with h3
        rw [← h3]
        unfold matchedTo
        exact List.filter_sublist _
      | namespaced m =>
        rw [slots_ns_char schema arg r K m hnd hmem hok] at hl
        exact Option.noConfusion hl

/-- Witness for claim C6 at the order example. -/
theorem C6_witness :
    ((exSchemaAll.map Prod.fst).Nodup
      ∧ getSlots exArgOrder exSchemaAll = .ok exResOrder) ∧
    (exResOrder.children.Sublist (flattenedInput exArgOrder) ∧
      ∀ K l, objGet exResOrder.slots K = some (.many l) →
        l.Sublist (flattenedInput exArgOrder)) :=
  ⟨⟨by decide, rfl⟩, C6_order exSchemaAll (by decide) exArgOrder exResOrder rfl⟩

/-- Splitting of the matched pairs along an append. -/
theorem matchedPairs_append (cmap : List (MapKey × String)) (L1 L2 : List RNode) :
    matchedPairs cmap (L1 ++ L2) = matchedPairs cmap L1 ++ matchedPairs cmap L2 := by
  unfold matchedPairs
  rw [List.filterMap_append]

/-- Claim C5: fragment flattening is exactly one level deep. A fragment
nested inside a top-level fragment is not unwrapped: it lands as a single
leaf in the output children, and its contents are invisible to
classification, so both the slots and the rest of the children output are
unchanged when that inner content is replaced by anything else. -/
theorem C5_one_level (schema : Schema) (a d b c ks ks2 : List RNode)
    (r r2 : SlotsResult)
    (hok : getSlots
      (.list (a ++ RNode.elem .fragment (b ++ RNode.elem .fragment ks :: c) :: d))
      schema = .ok r)
    (hok2 : getSlots
      (.list (a ++ RNode.elem .fragment (b ++ RNode.elem .fragment ks2 :: c) :: d))
      schema = .ok r2) :
    RNode.elem .fragment ks ∈ r.children ∧
    r.slots = r2.slots ∧
    ∃ A B, r.children = A ++ RNode.elem .fragment ks :: B
      ∧ r2.children = A ++ RNode.elem .fragment ks2 :: B := by
  have hflat : ∀ ks0 : List RNode,
      flattenedInput (.list (a ++ RNode.elem .fragment
          (b ++ RNode.elem .fragment ks0 :: c) :: d))
        = ((a.filter truthy).flatMap flattenOne ++ b)
          ++ RNode.elem .fragment ks0 :: (c ++ (d.filter truthy).flatMap flattenOne) := by
    intro ks0
    unfold flattenedInput normalizeChildren
    rw [List.filter_append, List.filter_cons]
    simp [truthy, flattenOne, List.flatMap_append, List.flatMap_cons, List.append_assoc]
  have hfragNone : ∀ ks0 : List RNode,
      nodeMatch (setupFold schema).1 (RNode.elem .fragment ks0) = none :=
    fun _ => rfl
  have hch : ∀ ks0 r0, getSlots
      (.list (a ++ RNode.elem .fragment (b ++ RNode.elem .fragment ks0 :: c) :: d))
        schema = .ok r0 →
      r0.children
        = (((a.filter truthy).flatMap flattenOne ++ b).filter
            (fun cv => (nodeMatch (setupFold schema).1 cv).isNone))
          ++ RNode.elem .fragment ks0
          :: ((c ++ (d.filter truthy).flatMap flattenOne).filter
            (fun cv => (nodeMatch (setupFold schema).1 cv).isNone)) := by
    intro ks0 r0 hok0
    rw [getSlots_children_char _ _ _ hok0, hflat ks0, List.filter_append,
      List.filter_cons]
    simp [hfragNone ks0]
  refine ⟨?_, ?_, ?_⟩
  · rw [hch ks r hok]
    simp
  · have hmp : ∀ ks0 : List RNode,
        matchedPairs (setupFold schema).1
          (((a.filter truthy).flatMap flattenOne ++ b)
            ++ RNode.elem .fragment ks0 :: (c ++ (d.filter truthy).flatMap flattenOne))
          = matchedPairs (setupFold schema).1 ((a.filter truthy).flatMap flattenOne ++ b)
            ++ matchedPairs (setupFold schema).1 (c ++ (d.filter truthy).flatMap flattenOne) := by
      intro ks0
      rw [matchedPairs_append, matchedPairs_cons_none _ _ _ (hfragNone ks0)]
    rw [getSlots_slots_char _ _ _ hok, getSlots_slots_char _ _ _ hok2,
      hflat ks, hflat ks2, hmp ks, hmp ks2]
  · exact ⟨_, _, hch ks r hok, hch ks2 r2 hok2⟩

/-- Result of getSlots on the nested-fragment example with inner content. -/
def exResNest : SlotsResult :=
  ⟨[("A", .one (.elem (.ctor 0) []))], [.elem .fragment [.elem (.ctor 0) []]]⟩

/-- Result of getSlots on the nested-fragment example with emptied inner
fragment. -/
def exResNest2 : SlotsResult :=
  ⟨[("A", .one (.elem (.ctor 0) []))], [.elem .fragment []]⟩

/-- Witness for claim C5 at a doubly nested fragment whose inner content
holds a would-be match. -/
theorem C5_witness :
    (getSlots (.list ([] ++ RNode.elem .fragment
        ([RNode.elem (.ctor 0) []] ++ RNode.elem .fragment [RNode.elem (.ctor 0) []] :: []) :: []))
        exSchemaDup = .ok exResNest
      ∧ getSlots (.list ([] ++ RNode.elem .fragment
        ([RNode.elem (.ctor 0) []] ++ RNode.elem .fragment [] :: []) :: []))
        exSchemaDup = .ok exResNest2) ∧
    (RNode.elem .fragment [RNode.elem (.ctor 0) []] ∈ exResNest.children ∧
      exResNest.slots = exResNest2.slots ∧
      ∃ A B, exResNest.children
          = A ++ RNode.elem .fragment [RNode.elem (.ctor 0) []] :: B
        ∧ exResNest2.children = A ++ RNode.elem .fragment [] :: B) :=
  ⟨⟨rfl, rfl⟩,
    C5_one_level exSchemaDup [] [] [RNode.elem (.ctor 0) []] []
      [RNode.elem (.ctor 0) []] [] exResNest exResNest2 rfl rfl⟩

/-- Claim C10: when the same component identity is registered by two schema
entries (single or repeatable forms), constructorMap keeps only the slot
name of the entry registered last in schema iteration order; every node
with that identity resolves there (so never lands in children), and the
earlier entry never receives a match: its slot stays absent if
non-repeatable and stays the pre-seeded empty array if repeatable. -/
theorem C10_shared_identity (s1 s2 s3 : Schema) (Ke Kl : String) (c : Nat)
    (ve vl : SchemaValue) (schema : Schema)
    (hsch : schema = s1 ++ (Ke, ve) :: s2 ++ (Kl, vl) :: s3)
    (hve : regComp ve = some c) (hvl : regComp vl = some c)
    (h3 : ∀ e ∈ s3, regComp e.2 ≠ some c)
    (hnd : (schema.map Prod.fst).Nodup)
    (arg : ChildrenArg) (r : SlotsResult) (hok : getSlots arg schema = .ok r) :
    wmGet (setupFold schema).1 (.ctor c) = some Kl ∧
    (∀ kids, RNode.elem (.ctor c) kids ∉ r.children) ∧
    ((∃ c0, ve = SchemaValue.single c0) → objGet r.slots Ke = none) ∧
    ((∃ c0, ve = SchemaValue.repeatable c0) →
      objGet r.slots Ke = some (.many [])) := by
  subst hsch
  have hlast : lastReg (s1 ++ (Ke, ve) :: s2 ++ (Kl, vl) :: s3) c = some Kl := by
    unfold lastReg
    have h3n : s3.reverse.find? (fun e => decide (regComp e.2 = some c)) = none := by
      rw [List.find?_eq_none]
      intro x hx
      simp only [decide_eq_true_eq]
      exact h3 x (List.mem_reverse.1 hx)
    simp [List.reverse_append, List.reverse_cons, List.append_assoc,
      List.find?_append, h3n, hvl]
  have hKeKl : Ke ≠ Kl := by
    have hsub : [Ke, Kl].Sublist
        ((s1 ++ (Ke, ve) :: s2 ++ (Kl, vl) :: s3).map Prod.fst) := by
      have hkeys : (s1 ++ (Ke, ve) :: s2 ++ (Kl, vl) :: s3).map Prod.fst
          = s1.map Prod.fst ++ (Ke :: s2.map Prod.fst ++ Kl :: s3.map Prod.fst) := by
        simp
      rw [hkeys]
      refine List.Sublist.trans ?_ (List.sublist_append_right _ _)
      refine List.Sublist.cons₂ _ ?_
      refine List.Sublist.trans ?_ (List.sublist_append_right _ _)
      exact List.Sublist.cons₂ _ (List.nil_sublist _)
    have hnd2 := List.Nodup.sublist hsub hnd
    rw [List.nodup_cons] at hnd2
    intro he
    exact hnd2.1 (by rw [he]; exact List.mem_cons_self _ _)
  have hmemKe : (Ke, ve) ∈ s1 ++ (Ke, ve) :: s2 ++ (Kl, vl) :: s3 :=
    List.mem_append.2 (Or.inl (List.mem_append.2 (Or.inr (List.mem_cons_self _ _))))
  have hnomatch : ∀ cv : RNode,
      nodeMatch (setupFold (s1 ++ (Ke, ve) :: s2 ++ (Kl, vl) :: s3)).1 cv
        ≠ some Ke := by
    intro cv hm
    obtain ⟨c2, kids, hcv, hw⟩ := nodeMatch_some _ _ _ hm
    rw [wmGet_ctor] at hw
    obtain ⟨v2, hv2, hreg2⟩ := lastReg_mem _ c2 Ke hw
    have hveq := mem_unique_nodup _ Ke _ _ hnd hv2 hmemKe
    rw [hveq, hve] at hreg2
    injection hreg2 with hc2
    rw [← hc2] at hw
    rw [hlast] at hw
    injection hw with hw2
    exact hKeKl hw2.symm
  have hmtKe : matchedTo (s1 ++ (Ke, ve) :: s2 ++ (Kl, vl) :: s3) arg Ke = [] := by
    unfold matchedTo
    rw [List.filter_eq_nil_iff]
    intro cv _
    simp only [decide_eq_true_eq]
    exact hnomatch cv
  refine ⟨?_, ?_, ?_, ?_⟩
  · rw [wmGet_ctor]
    exact hlast
  · intro kids hmem
    rw [children_mem_iff _ _ _ hok] at hmem
    obtain ⟨_, hnone⟩ := hmem
    have hsome : nodeMatch (setupFold (s1 ++ (Ke, ve) :: s2 ++ (Kl, vl) :: s3)).1
        (RNode.elem (.ctor c) kids) = some Kl := by
      show wmGet (setupFold (s1 ++ (Ke, ve) :: s2 ++ (Kl, vl) :: s3)).1 (.ctor c)
        = some Kl
      rw [wmGet_ctor]
      exact hlast
    rw [hsome] at hnone
    exact Option.noConfusion hnone
  · rintro ⟨c0, rfl⟩
    rw [slots_single_char _ arg r Ke c0 hnd hmemKe hok, hmtKe]
    rfl
  · rintro ⟨c0, rfl⟩
    rw [slots_rep_char _ arg r Ke c0 hnd hmemKe hok, hmtKe]

/-- Schema sharing component 5 between a non-repeatable and a repeatable
entry, used by the shared-identity witness. -/
def exSchemaShared : Schema := [("A", .single 5), ("B", .repeatable 5)]

/-- Result of getSlots on the shared-identity example. -/
def exResShared : SlotsResult := ⟨[("B", .many [.elem (.ctor 5) []])], []⟩

/-- Witness for claim C10 at the shared-identity example. -/
theorem C10_witness :
    ((exSchemaShared
        = [] ++ ("A", SchemaValue.single 5) :: [] ++ ("B", SchemaValue.repeatable 5) :: []
      ∧ regComp (SchemaValue.single 5) = some 5
      ∧ regComp (SchemaValue.repeatable 5) = some 5
      ∧ (∀ e ∈ ([] : Schema), regComp e.2 ≠ some 5)
      ∧ (exSchemaShared.map Prod.fst).Nodup)
      ∧ getSlots (.single (.elem (.ctor 5) [])) exSchemaShared = .ok exResShared) ∧
    (wmGet (setupFold exSchemaShared).1 (.ctor 5) = some "B" ∧
      (∀ kids, RNode.elem (.ctor 5) kids ∉ exResShared.children) ∧
      ((∃ c0, SchemaValue.single 5 = SchemaValue.single c0) →
        objGet exResShared.slots "A" = none) ∧
      ((∃ c0, SchemaValue.single 5 = SchemaValue.repeatable c0) →
        objGet exResShared.slots "A" = some (.many []))) :=
  ⟨⟨⟨by decide, rfl, rfl, by decide, by decide⟩, rfl⟩,
    C10_shared_identity [] [] [] "A" "B" 5 (.single 5) (.repeatable 5)
      exSchemaShared (by decide) rfl rfl (by decide) (by decide)
      (.single (.elem (.ctor 5) [])) exResShared rfl⟩

/-! Counting machinery for the totality equation. -/

theorem nsMatched_false (schema : Schema) (cv : RNode) :
    nsMatched schema cv = false := by
  cases cv with
  | elem t kids => cases t <;> rfl
  | text s => rfl
  | num n => rfl
  | boolTrue => rfl
  | boolFalse => rfl
  | nullN => rfl
  | undefN => rfl

theorem nsMatchCount_zero (schema : Schema) (arg : ChildrenArg) :
    nsMatchCount schema arg = 0 := by
  unfold nsMatchCount
  have hnil : (flattenedInput arg).filter (nsMatched schema) = [] := by
    rw [List.filter_eq_nil_iff]
    intro cv _
    rw [nsMatched_false]
    exact Bool.false_ne_true
  rw [hnil]
  rfl

theorem count_partition (schema : Schema) : ∀ L : List RNode,
    (L.filter (fun cv => (nodeMatch (setupFold schema).1 cv).isNone)).length
      + (L.filter (matchedKindRep schema)).length
      + (L.filter (matchedKindSingle schema)).length
      = L.length := by
  intro L
  induction L with
  | nil => rfl
  | cons cv rest ih =>
    rw [List.filter_cons, List.filter_cons, List.filter_cons]
    cases hm : nodeMatch (setupFold schema).1 cv with
    | none =>
      simp [matchedKindRep, matchedKindSingle, hm]
      omega
    | some k =>
      by_cases hA : isArraySchemaVal (schemaGet schema k)
      · simp [matchedKindRep, matchedKindSingle, hm, hA]
        omega
      · have hA2 : isArraySchemaVal (schemaGet schema k) = false := by simpa using hA
        simp [matchedKindRep, matchedKindSingle, hm, hA2]
        omega

theorem manySum_objSet_present : ∀ (o : Slots) (k : String) (v w : SlotVal),
    objGet o k = some w →
    slotsManySum (objSet o k v) + manyLen w = slotsManySum o + manyLen v := by
  intro o
  induction o with
  | nil => intro k v w h; simp [objGet] at h
  | cons e rest ih =>
    intro k v w h
    by_cases he : e.1 = k
    · unfold objGet at h
      rw [List.find?_cons_of_pos _ (by simpa using he)] at h
      simp only [Option.map_some'] at h
      injection h with hw
      simp only [objSet, if_pos he]
      unfold slotsManySum
      simp only [List.map_cons, List.sum_cons]
      rw [hw]
      omega
    · unfold objGet at h
      rw [List.find?_cons_of_neg _ (by simpa using he)] at h
      have h2 : objGet rest k = some w := h
      simp only [objSet, if_neg he]
      have := ih k v w h2
      unfold slotsManySum at this ⊢
      simp only [List.map_cons, List.sum_cons]
      omega

theorem manySum_objSet_absent : ∀ (o : Slots) (k : String) (v : SlotVal),
    objGet o k = none →
    slotsManySum (objSet o k v) = slotsManySum o + manyLen v := by
  intro o
  induction o with
  | nil =>
    intro k v _
    unfold slotsManySum objSet
    simp
  | cons e rest ih =>
    intro k v h
    by_cases he : e.1 = k
    · unfold objGet at h
      rw [List.find?_cons_of_pos _ (by simpa using he)] at h
      simp at h
    · unfold objGet at h
      rw [List.find?_cons_of_neg _ (by simpa using he)] at h
      have h2 : objGet rest k = none := h
      simp only [objSet, if_neg he]
      have := ih k v h2
      unfold slotsManySum at this ⊢
      simp only [List.map_cons, List.sum_cons]
      omega

/-- Well-formedness of a slots object relative to a schema: array values
sit only at keys whose schema value is an array, bare values only at keys
whose schema value is not. -/
def slWF (schema : Schema) (sl : Slots) : Prop :=
  (∀ K l, objGet sl K = some (.many l) →
    isArraySchemaVal (schemaGet schema K) = true) ∧
  (∀ K x, objGet sl K = some (.one x) →
    isArraySchemaVal (schemaGet schema K) = false)

theorem applySlot_get_self (schema : Schema) (sl : Slots) (k : String) (cv : RNode) :
    (isArraySchemaVal (schemaGet schema k) = false →
      objGet (applySlot schema sl k cv) k = some (.one cv)) ∧
    (isArraySchemaVal (schemaGet schema k) = true →
      ∃ l, objGet (applySlot schema sl k cv) k = some (.many l)) := by
  constructor
  · intro hA
    unfold applySlot
    rw [hA]
    simp [objGet_objSet_self]
  · intro hA
    unfold applySlot
    rw [hA]
    cases hg : objGet sl k with
    | none => exact ⟨[cv], by simp [objGet_objSet_self]⟩
    | some w =>
      cases w with
      | many l => exact ⟨l ++ [cv], by simp [objGet_objSet_self]⟩
      | one x => exact ⟨[x, cv], by simp [objGet_objSet_self]⟩

theorem applySlot_manySum (schema : Schema) (sl : Slots) (k : String) (cv : RNode)
    (hwf : slWF schema sl) :
    slotsManySum (applySlot schema sl k cv)
      = slotsManySum sl + (if isArraySchemaVal (schemaGet schema k) then 1 else 0) := by
  by_cases hA : isArraySchemaVal (schemaGet schema k)
  · rw [if_pos hA]
    cases hg : objGet sl k with
    | none =>
      have happ : applySlot schema sl k cv = objSet sl k (.many [cv]) := by
        unfold applySlot
        rw [hA, hg]
        rfl
      rw [happ, manySum_objSet_absent sl k _ hg]
      rfl
    | some w =>
      cases w with
      | one x => exact absurd hA (by simp [hwf.2 k x hg])
      | many l =>
        have happ : applySlot schema sl k cv = objSet sl k (.many (l ++ [cv])) := by
          unfold applySlot
          rw [hA, hg]
          rfl
        have h2 := manySum_objSet_present sl k (.many (l ++ [cv])) (.many l) hg
        rw [happ]
        simp only [manyLen, List.length_append, List.length_cons,
          List.length_nil] at h2
        omega
  · have hA2 : isArraySchemaVal (schemaGet schema k) = false := by simpa using hA
    rw [if_neg hA]
    have happ : applySlot schema sl k cv = objSet sl k (.one cv) := by
      unfold applySlot
      rw [hA2]
      rfl
    rw [happ]
    cases hg : objGet sl k with
    | none =>
      rw [manySum_objSet_absent sl k _ hg]
      rfl
    | some w =>
      cases w with
      | many l => exact absurd (hwf.1 k l hg) (by simpa using hA)
      | one x =>
        have h2 := manySum_objSet_present sl k (.one cv) (.one x) hg
        simp only [manyLen] at h2
        omega

theorem applySlot_WF (schema : Schema) (sl : Slots) (k : String) (cv : RNode)
    (hwf : slWF schema sl) : slWF schema (applySlot schema sl k cv) := by
  constructor
  · intro K l hK
    by_cases hKk : K = k
    · subst hKk
      by_cases hA : isArraySchemaVal (schemaGet schema K)
      · exact hA
      · rw [(applySlot_get_self schema sl K cv).1 (by simpa using hA)] at hK
        simp at hK
    · rw [objGet_applySlot_ne schema sl k K cv hKk] at hK
      exact hwf.1 K l hK
  · intro K x hK
    by_cases hKk : K = k
    · subst hKk
      by_cases hA : isArraySchemaVal (schemaGet schema K)
      · obtain ⟨l, hl⟩ := (applySlot_get_self schema sl K cv).2 hA
        rw [hl] at hK
        simp at hK
      · simpa using hA
    · rw [objGet_applySlot_ne schema sl k K cv hKk] at hK
      exact hwf.2 K x hK

theorem pairsFold_manySum (schema : Schema) : ∀ (pairs : List (String × RNode))
    (sl : Slots), slWF schema sl →
    slotsManySum (pairsFold schema sl pairs)
      = slotsManySum sl
        + (pairs.filter (fun e => isArraySchemaVal (schemaGet schema e.1))).length := by
  intro pairs
  induction pairs with
  | nil => intro sl _; simp [pairsFold_nil]
  | cons e rest ih =>
    intro sl hwf
    rw [pairsFold_cons, ih _ (applySlot_WF schema sl e.1 e.2 hwf),
      applySlot_manySum schema sl e.1 e.2 hwf, List.filter_cons]
    by_cases hA : isArraySchemaVal (schemaGet schema e.1)
    · simp only [hA, if_true, List.length_cons]
      omega
    · have hA2 : isArraySchemaVal (schemaGet schema e.1) = false := by simpa using hA
      simp only [hA2, if_false, Bool.false_eq_true]
      omega

theorem initSlots_WF (schema : Schema) (hnd : (schema.map Prod.fst).Nodup) :
    slWF schema (setupFold schema).2 := by
  constructor
  · intro K l hK
    rw [initSlots_get] at hK
    by_cases hany : (schema.any fun e => decide (e.1 = K) && isRepVal e.2) = true
    · rw [List.any_eq_true] at hany
      obtain ⟨e, he, hp⟩ := hany
      obtain ⟨k2, v2⟩ := e
      simp only [Bool.and_eq_true, decide_eq_true_eq] at hp
      obtain ⟨hk2, hrep⟩ := hp
      cases v2 with
      | repeatable c =>
        rw [hk2] at he
        rw [schemaGet_mem_nodup schema K _ hnd he]
        rfl
      | single c => simp [isRepVal] at hrep
      | namespaced m => simp [isRepVal] at hrep
    · rw [if_neg hany] at hK
      exact Option.noConfusion hK
  · intro K x hK
    rw [initSlots_get] at hK
    by_cases hany : (schema.any fun e => decide (e.1 = K) && isRepVal e.2) = true
    · rw [if_pos hany] at hK
      simp at hK
    · rw [if_neg hany] at hK
      exact Option.noConfusion hK

theorem setupFold_snd_entries : ∀ (schema : Schema) (m : List (MapKey × String))
    (o : Slots), (∀ e ∈ o, e.2 = SlotVal.many []) →
    ∀ e ∈ (schema.foldl setupStep (m, o)).2, e.2 = SlotVal.many [] := by
  intro schema
  induction schema with
  | nil => intro m o h; exact h
  | cons e0 rest ih =>
    intro m o h
    obtain ⟨k, v⟩ := e0
    rw [List.foldl_cons]
    cases v with
    | single c =>
      simp only [setupStep]
      exact ih _ _ h
    | namespaced mm =>
      simp only [setupStep]
      exact ih _ _ h
    | repeatable c =>
      simp only [setupStep]
      apply ih
      intro e he
      rcases mem_objSet o k (SlotVal.many []) e he with h1 | h1
      · exact h e h1
      · rw [h1]

theorem sum_manyLen_zero : ∀ o : Slots,
    (∀ e ∈ o, e.2 = SlotVal.many []) → slotsManySum o = 0 := by
  intro o
  induction o with
  | nil => intro _; rfl
  | cons e rest ih =>
    intro h
    unfold slotsManySum
    rw [List.map_cons, List.sum_cons, h e (List.mem_cons_self _ _)]
    have := ih (fun x hx => h x (List.mem_cons_of_mem _ hx))
    unfold slotsManySum at this
    rw [this]
    rfl

theorem initSlots_manySum (schema : Schema) : slotsManySum (setupFold schema).2 = 0 :=
  sum_manyLen_zero _ (setupFold_snd_entries schema [] []
    (fun e he => absurd he (List.not_mem_nil e)))

theorem matchedPairs_filter_isArray (schema : Schema) : ∀ L : List RNode,
    ((matchedPairs (setupFold schema).1 L).filter
        (fun e => isArraySchemaVal (schemaGet schema e.1))).length
      = (L.filter (matchedKindRep schema)).length := by
  intro L
  induction L with
  | nil => rfl
  | cons cv rest ih =>
    cases hm : nodeMatch (setupFold schema).1 cv with
    | none =>
      rw [matchedPairs_cons_none _ _ _ hm, List.filter_cons]
      simp [matchedKindRep, hm, ih]
    | some k =>
      rw [matchedPairs_cons_some _ _ _ _ hm]
      by_cases hA : isArraySchemaVal (schemaGet schema k)
      · simp [List.filter_cons, matchedKindRep, hm, hA, ih]
      · simp [List.filter_cons, matchedKindRep, hm, hA, ih]

/-- Claim C3, counterexample: with one non-repeatable slot and two matching
nodes, the output children count plus the spec-counted slot sizes (one per
bare slot, length per array slot) plus the namespaced-match count is 1,
while the flattened filtered input has 2 nodes: the overwritten earlier
duplicate is in no bucket, so the claimed partition equation fails. -/
theorem C3_counterexample :
    getSlots exArgDup exSchemaDup = .ok exResDup ∧
    exResDup.children.length + claimSlotsSum exResDup.slots
        + nsMatchCount exSchemaDup exArgDup
      ≠ (flattenedInput exArgDup).length :=
  ⟨rfl, by decide⟩

/-- Claim C3, amended: for every run of getSlots that completes, the output
children count, plus the total length of array-valued slots, plus the
number of nodes matched to non-repeatable slots (counting every duplicate,
not 1 per slot), plus the number of namespaced matches (always zero), equals
the flattened filtered input count; the buckets are disjoint since each node
resolves to at most one slot. -/
theorem C3_amended_thm (schema : Schema) (hnd : (schema.map Prod.fst).Nodup)
    (arg : ChildrenArg) (r : SlotsResult) (hok : getSlots arg schema = .ok r) :
    r.children.length + slotsManySum r.slots + countMatchedSingle schema arg
        + nsMatchCount schema arg
      = (flattenedInput arg).length := by
  rw [getSlots_children_char arg schema r hok, getSlots_slots_char arg schema r hok,
    pairsFold_manySum schema _ _ (initSlots_WF schema hnd),
    initSlots_manySum schema, matchedPairs_filter_isArray schema,
    nsMatchCount_zero schema arg]
  unfold countMatchedSingle
  have := count_partition schema (flattenedInput arg)
  omega

/-- Example children argument mixing a repeatable match, duplicate single
matches, a host element and a falsy placeholder. -/
def exArgMix : ChildrenArg :=
  .list [.elem (.ctor 0) [], .elem (.ctor 1) [], .elem (.ctor 1) [],
    .elem (.str "div") [], .boolFalse]

/-- Result of getSlots on the mixed example over the three-form schema. -/
def exResMix : SlotsResult :=
  ⟨[("A", .many [.elem (.ctor 0) []]), ("B", .one (.elem (.ctor 1) []))],
    [.elem (.str "div") []]⟩

/-- Witness for the amended claim C3 at the mixed example. -/
theorem C3_amended_witness :
    ((exSchemaAll.map Prod.fst).Nodup
      ∧ getSlots exArgMix exSchemaAll = .ok exResMix) ∧
    exResMix.children.length + slotsManySum exResMix.slots
        + countMatchedSingle exSchemaAll exArgMix
        + nsMatchCount exSchemaAll exArgMix
      = (flattenedInput exArgMix).length :=
  ⟨⟨by decide, rfl⟩, C3_amended_thm exSchemaAll (by decide) exArgMix exResMix rfl⟩

end ReactSlots
